import Mathlib

/-!
Verification of the `slogctx` context-attribute propagation layer.

Shallow embedding of the package `slogctx` of `github.com/fpawel/slogx`
(file `handler.go` of that package: types `Handler`, `fieldsData`, `field`,
functions `WithValues`, `WithUniqueValues`, `WithoutKeys`, `WithoutAllKeys`,
`GetFirstValue`, `HasKey` and the methods `Handle`, `WithAttrs`, `WithGroup`).

Two levels of modelling are used:

* a value-level model (`Slogctx` namespace): a Go `context.Context` is
  represented by the chain of `context.WithValue` derivations under the
  private key `contextKeyFields`; the stored `*fieldsData` is represented
  by its field list.  A `nil` context interface is `Option.none`; a Go
  runtime panic (nil dereference, `context.WithValue` on a nil parent) is
  `Except.error GoFault.nilCtx`.

* a slice-level model (`SlogctxHeap` namespace) in which Go slices are
  triples (backing-array id, length, capacity) into an explicit heap of
  backing arrays, `append` overwrites the backing array in place when the
  capacity suffices, and `slices.Clone`/`make` allocate fresh arrays.  This
  level is used for the copy-on-write immutability claims.
-/

namespace Slogctx

/-- Go `any` values that can appear as arguments of `WithValues` /
`WithUniqueValues` and as the `val` field of a `field`: strings, integers,
the untyped `nil`, and opaque values of any other dynamic type. -/
inductive GoVal where
  | str (s : String)
  | int (n : Int)
  | nilv
  | other (n : Nat)
deriving DecidableEq, Repr

/-- The Go type assertion `x.(string)`: succeeds exactly on string values. -/
def GoVal.asString : GoVal → Option String
  | .str s => some s
  | _ => none

/-- The source type `field`: one key/value pair of a carrier. -/
structure Field where
  key : String
  val : GoVal
deriving DecidableEq, Repr

/-- A Go `context.Context`, abstracted to what is observable through the
private key `contextKeyFields`: either a context with no binding under that
key (`background`), or a context derived by
`context.WithValue(parent, contextKeyFields, v)` where the stored `any`
value `v` is either `nil` (`Option.none`, written by `WithoutAllKeys` and
by `WithoutKeys` when no field remains) or a `*fieldsData` with slice `l`
(`Option.some l`).  `Value` on a derived context returns the innermost
stored value, shadowing the parent. -/
inductive Context where
  | background
  | withValue (parent : Context) (v : Option (List Field))
deriving DecidableEq, Repr

/-- `ctx.Value(contextKeyFields)` seen through the `.(*fieldsData)` type
assertion: `some l` when the assertion succeeds with slice `l`, `none`
when there is no binding or the bound value is `nil`. -/
def Context.fieldsValue : Context → Option (List Field)
  | .background => none
  | .withValue _ v => v

/-- A Go runtime panic caused by a nil context: either calling a method on
a nil `context.Context` interface or `context.WithValue` on a nil parent. -/
inductive GoFault where
  | nilCtx
deriving DecidableEq, Repr

/-- The shared argument-parsing loop of `WithValues` and `WithUniqueValues`:
`n := len(args)`, decremented once when odd, then
`for i := 0; i+1 < n; i += 2` keeps `field{key, args[i+1]}` exactly when
`args[i].(string)` succeeds with a non-empty `key`.  Consuming the list two
elements at a time drops the odd trailing argument. -/
def parseFields : List GoVal → List Field
  | k :: v :: rest =>
    match k.asString with
    | some key => if key = "" then parseFields rest else ⟨key, v⟩ :: parseFields rest
    | none => parseFields rest
  | _ => []

/-- Source function `WithValues(ctx, args...)`.  A nil `ctx` is replaced by
`context.Background()`; the parsed fields are appended to a clone of the
existing slice (or bound directly when there is no existing field); when no
parsed field remains the input context is returned unchanged. -/
def WithValues (octx : Option Context) (args : List GoVal) : Context :=
  let ctx := octx.getD Context.background
  let newFields := parseFields args
  if newFields = [] then ctx
  else
    match ctx.fieldsValue with
    | none => ctx.withValue (some newFields)
    | some old =>
      if old = [] then ctx.withValue (some newFields)
      else ctx.withValue (some (old ++ newFields))

/-- Source function `WithUniqueValues(ctx, args...)`.  Same parsing as
`WithValues`; the keys of the parsed batch form `replaceSet`; existing
fields whose key is in `replaceSet` are dropped and the batch is appended
at the end. -/
def WithUniqueValues (octx : Option Context) (args : List GoVal) : Context :=
  let ctx := octx.getD Context.background
  let newFields := parseFields args
  if newFields = [] then ctx
  else
    let existing : List Field :=
      match ctx.fieldsValue with
      | some l => l
      | none => []
    let result := existing.filter (fun f => !(newFields.map Field.key).contains f.key)
    ctx.withValue (some (result ++ newFields))

/-- Source function `WithoutAllKeys(ctx)`:
`context.WithValue(ctx, contextKeyFields, nil)`, which panics when `ctx`
is nil (`cannot create context from nil parent`). -/
def WithoutAllKeys (octx : Option Context) : Except GoFault Context :=
  match octx with
  | none => .error .nilCtx
  | some c => .ok (c.withValue none)

/-- Source function `WithoutKeys(ctx, keys...)`.  Nil context or empty key
list return the input unchanged; so does a missing/nil/empty binding.
Otherwise the fields whose key is not in `keySet` are kept in order; when
none remains the binding is set to `nil`. -/
def WithoutKeys (octx : Option Context) (keys : List String) : Option Context :=
  match octx with
  | none => none
  | some c =>
    if keys = [] then some c
    else
      match c.fieldsValue with
      | none => some c
      | some l =>
        if l = [] then some c
        else
          let result := l.filter (fun f => !keys.contains f.key)
          if result = [] then some (c.withValue none)
          else some (c.withValue (some result))

/-- The lookup loop `for _, f := range p.slice` of `GetFirstValue`:
the first field whose key equals `key` wins. -/
def findFirst (l : List Field) (key : String) : Option GoVal :=
  match l with
  | [] => none
  | f :: rest => if f.key = key then some f.val else findFirst rest key

/-- Source function `GetFirstValue(ctx, key)`.  Empty key returns
`(nil, false)` before `ctx` is touched; afterwards `ctx.Value` is called,
which panics when `ctx` is the nil interface. -/
def GetFirstValue (octx : Option Context) (key : String) :
    Except GoFault (Option GoVal × Bool) :=
  if key = "" then .ok (none, false)
  else
    match octx with
    | none => .error .nilCtx
    | some c =>
      match c.fieldsValue with
      | none => .ok (none, false)
      | some l =>
        match findFirst l key with
        | some v => .ok (some v, true)
        | none => .ok (none, false)

/-- The existence loop of `HasKey`. -/
def hasKeyIn (l : List Field) (key : String) : Bool :=
  match l with
  | [] => false
  | f :: rest => if f.key = key then true else hasKeyIn rest key

/-- Source function `HasKey(ctx, key)`: same structure as `GetFirstValue`
without value extraction. -/
def HasKey (octx : Option Context) (key : String) : Except GoFault Bool :=
  if key = "" then .ok false
  else
    match octx with
    | none => .error .nilCtx
    | some c =>
      match c.fieldsValue with
      | none => .ok false
      | some l => .ok (hasKeyIn l key)

/-- A `slog.Attr` as produced by `slog.Any(key, val)`. -/
structure Attr where
  key : String
  val : GoVal
deriving DecidableEq, Repr

/-- The part of `slog.Record` the decorator touches: severity, message and
the accumulated attribute list. -/
structure Record where
  level : Int
  msg : String
  attrs : List Attr
deriving DecidableEq, Repr

/-- `record.AddAttrs(as...)`: append-only attribute accumulation. -/
def Record.addAttrs (r : Record) (as : List Attr) : Record :=
  { r with attrs := r.attrs ++ as }

/-- The loop of `Handler.Handle`:
`for _, f := range p.slice { record.AddAttrs(slog.Any(f.key, f.val)) }`. -/
def addFieldsLoop (r : Record) : List Field → Record
  | [] => r
  | f :: rest => addFieldsLoop (r.addAttrs [⟨f.key, f.val⟩]) rest

/-- The record mutation performed by `Handler.Handle` before delegation:
the loop runs exactly when the `.(*fieldsData)` assertion on
`ctx.Value(contextKeyFields)` succeeds. -/
def addCtxAttrs (ctx : Context) (r : Record) : Record :=
  match ctx.fieldsValue with
  | some l => addFieldsLoop r l
  | none => r

/-- The capability set of a wrapped `slog.Handler`, as a coalgebra over a
state type `σ`: each sink state answers `Enabled`/`Handle` and steps to a
new sink state under `WithAttrs`/`WithGroup`.  `ε` is the opaque error
type of `Handle`; returning `Option.none` is Go's nil error. -/
structure SinkSig (σ : Type) (ε : Type) where
  enabledF : σ → Context → Int → Bool
  handleF : σ → Context → Record → Option ε
  withAttrsF : σ → List Attr → σ
  withGroupF : σ → String → σ

/-- The source type `Handler`: a struct embedding the wrapped
`slog.Handler` (here: its sink state). -/
structure Handler (σ : Type) where
  wrapped : σ

/-- Source constructor `NewHandler(handler)`. -/
def NewHandler (s : σ) : Handler σ := ⟨s⟩

/-- Source method `Handler.Enabled`: direct delegation. -/
def Handler.Enabled (sig : SinkSig σ ε) (h : Handler σ) (ctx : Context) (level : Int) : Bool :=
  sig.enabledF h.wrapped ctx level

/-- Source method `Handler.Handle`: add the carrier fields to the record,
then return `h.Handler.Handle(ctx, record)`. -/
def Handler.Handle (sig : SinkSig σ ε) (h : Handler σ) (ctx : Context) (r : Record) :
    Option ε :=
  sig.handleF h.wrapped ctx (addCtxAttrs ctx r)

/-- Source method `Handler.WithAttrs`: `Handler{h.Handler.WithAttrs(attrs)}`. -/
def Handler.WithAttrs (sig : SinkSig σ ε) (h : Handler σ) (attrs : List Attr) : Handler σ :=
  ⟨sig.withAttrsF h.wrapped attrs⟩

/-- Source method `Handler.WithGroup`: `Handler{Handler: h.Handler.WithGroup(name)}`. -/
def Handler.WithGroup (sig : SinkSig σ ε) (h : Handler σ) (name : String) : Handler σ :=
  ⟨sig.withGroupF h.wrapped name⟩

/-! ## Specification-side vocabulary

These definitions follow the words of the specification, not the source
loops; theorems relate the source functions to them. -/

/-- The observable carrier of a context: its bound field sequence, with
absence of a binding equivalent to the empty carrier (spec §3). -/
def Context.carrier (c : Context) : List Field := (c.fieldsValue).getD []

/-- Observable carrier of a possibly-nil context. -/
def carrierO : Option Context → List Field
  | none => []
  | some c => c.carrier

/-- Spec-side pairing of an argument list: consecutive disjoint pairs, the
odd trailing argument dropped. -/
def pairsOf : List GoVal → List (GoVal × GoVal)
  | k :: v :: rest => (k, v) :: pairsOf rest
  | _ => []

/-- Spec-side filter: a pair is kept exactly when its key position holds a
non-empty string. -/
def keepPair : GoVal × GoVal → Option Field
  | (k, v) =>
    match k.asString with
    | some s => if s = "" then none else some ⟨s, v⟩
    | none => none

/-- The attribute `slog.Any(f.key, f.val)` contributed by a field. -/
def Field.toAttr (f : Field) : Attr := ⟨f.key, f.val⟩

/-- A step of a context-derivation chain built from the two operations
whose no-op cases the specification singles out. -/
inductive CtxOp where
  | addVals (args : List GoVal)
  | dropKeys (keys : List String)
deriving DecidableEq, Repr

/-- Apply one derivation step. -/
def applyOp (octx : Option Context) : CtxOp → Option Context
  | .addVals args => some (WithValues octx args)
  | .dropKeys keys => WithoutKeys octx keys

/-- Apply a derivation chain left to right. -/
def applyChain (octx : Option Context) (ops : List CtxOp) : Option Context :=
  ops.foldl applyOp octx

/-- The no-op steps of the specification: `WithValues` with zero valid
pairs after filtering, and `WithoutKeys` with an empty key list. -/
def CtxOp.IsNoOp : CtxOp → Prop
  | .addVals args => parseFields args = []
  | .dropKeys keys => keys = []

instance : DecidablePred CtxOp.IsNoOp := by
  intro op
  cases op <;> simp only [CtxOp.IsNoOp] <;> infer_instance

end Slogctx

namespace SlogctxHeap

open Slogctx (GoVal Field parseFields GoFault Record Attr addFieldsLoop findFirst hasKeyIn)

/-!
The slice-level model.

Go slices are modelled as triples into an explicit heap of backing
arrays, so that the in-place-overwrite behaviour of `append` within
capacity is represented faithfully; the copy-on-write discipline of the
source (`slices.Clone`, fresh `make` before every write) is then a
provable property, not an assumption.  Backing-array ids are indices into
`Heap.mem`; an array is a list whose length is its capacity. -/

/-- A Go slice header: backing array id, length, capacity.  The functions
under study never reslice with a nonzero offset, so no offset field is
needed. -/
structure Slice where
  arr : Nat
  len : Nat
  cap : Nat
deriving DecidableEq, Repr

/-- The heap of backing arrays; `mem.length` is the next fresh id. -/
structure Heap where
  mem : List (List Field)
deriving DecidableEq, Repr

/-- The zero value of the Go type `field`. -/
def padField : Field := ⟨"", GoVal.nilv⟩

/-- The field sequence a slice denotes. -/
def Heap.read (h : Heap) (s : Slice) : List Field :=
  (h.mem.getD s.arr []).take s.len

/-- `make([]field, 0, c)`: a fresh zeroed backing array of capacity `c`. -/
def Heap.allocCap (h : Heap) (c : Nat) : Heap × Slice :=
  (⟨h.mem ++ [List.replicate c padField]⟩, ⟨h.mem.length, 0, c⟩)

/-- Allocation of a fresh backing array already holding `l` (used for the
slice the argument-parsing loop builds in its own fresh `make`). -/
def Heap.allocList (h : Heap) (l : List Field) : Heap × Slice :=
  (⟨h.mem ++ [l]⟩, ⟨h.mem.length, l.length, l.length⟩)

/-- Overwrite `buf` from position `pos` on with `xs`, keeping the rest. -/
def writeAt (buf : List Field) (pos : Nat) (xs : List Field) : List Field :=
  buf.take pos ++ xs ++ buf.drop (pos + xs.length)

/-- Go `append(s, xs...)`: writes into the existing backing array when the
capacity suffices — overwriting whatever other slices may see beyond
`s.len` — and otherwise copies into a fresh backing array. -/
def Heap.appendMany (h : Heap) (s : Slice) (xs : List Field) : Heap × Slice :=
  if s.len + xs.length ≤ s.cap then
    (⟨h.mem.set s.arr (writeAt (h.mem.getD s.arr []) s.len xs)⟩,
      ⟨s.arr, s.len + xs.length, s.cap⟩)
  else
    (⟨h.mem ++ [h.read s ++ xs]⟩,
      ⟨h.mem.length, s.len + xs.length, s.len + xs.length⟩)

/-- `slices.Clone(s)`: a fresh backing array with the same contents. -/
def Heap.clone (h : Heap) (s : Slice) : Heap × Slice :=
  h.allocList (h.read s)

/-- The copy loops of `WithUniqueValues` and `WithoutKeys`:
`for _, f := range src { if keep(f) { dst = append(dst, f) } }`. -/
def copyFilterLoop (keep : Field → Bool) : Heap → Slice → List Field → Heap × Slice
  | h, s, [] => (h, s)
  | h, s, f :: rest =>
    if keep f then
      let p := h.appendMany s [f]
      copyFilterLoop keep p.1 p.2 rest
    else copyFilterLoop keep h s rest

/-- Contexts at the slice level: as `Slogctx.Context`, but the bound
`*fieldsData` holds a slice header into the heap. -/
inductive HContext where
  | background
  | withValue (parent : HContext) (v : Option Slice)
deriving DecidableEq, Repr

/-- `ctx.Value(contextKeyFields)` through the `.(*fieldsData)` assertion. -/
def HContext.fieldsValue : HContext → Option Slice
  | .background => none
  | .withValue _ v => v

/-- Source function `WithValues` at the slice level. -/
def WithValuesH (h : Heap) (octx : Option HContext) (args : List GoVal) :
    Heap × HContext :=
  let ctx := octx.getD .background
  let newFields := parseFields args
  if newFields = [] then (h, ctx)
  else
    match ctx.fieldsValue with
    | none =>
      let p := h.allocList newFields
      (p.1, ctx.withValue (some p.2))
    | some s =>
      if s.len = 0 then
        let p := h.allocList newFields
        (p.1, ctx.withValue (some p.2))
      else
        let pc := h.clone s
        let pa := pc.1.appendMany pc.2 newFields
        (pa.1, ctx.withValue (some pa.2))

/-- Source function `WithUniqueValues` at the slice level.  `newFields` is
first materialised in its own fresh slice (the parse loop's `make`); the
copy loop fills a second fresh slice of capacity
`len(existing)+len(newFields)`; the final variadic `append` then stays
within that capacity. -/
def WithUniqueValuesH (h : Heap) (octx : Option HContext) (args : List GoVal) :
    Heap × HContext :=
  let ctx := octx.getD .background
  let newFields := parseFields args
  if newFields = [] then (h, ctx)
  else
    let pn := h.allocList newFields
    let existing : List Field :=
      match ctx.fieldsValue with
      | some s => if s.len ≠ 0 then pn.1.read s else []
      | none => []
    let pr := pn.1.allocCap (existing.length + newFields.length)
    let pl := copyFilterLoop (fun f => !(newFields.map Field.key).contains f.key)
      pr.1 pr.2 existing
    let pc := pl.1.appendMany pl.2 (pl.1.read pn.2)
    (pc.1, ctx.withValue (some pc.2))

/-- Source function `WithoutKeys` at the slice level. -/
def WithoutKeysH (h : Heap) (octx : Option HContext) (keys : List String) :
    Heap × Option HContext :=
  match octx with
  | none => (h, none)
  | some c =>
    if keys = [] then (h, some c)
    else
      match c.fieldsValue with
      | none => (h, some c)
      | some s =>
        if s.len = 0 then (h, some c)
        else
          let pr := h.allocCap s.len
          let pl := copyFilterLoop (fun f => !keys.contains f.key) pr.1 pr.2 (h.read s)
          if pl.2.len = 0 then (pl.1, some (c.withValue none))
          else (pl.1, some (c.withValue (some pl.2)))

/-- Source function `WithoutAllKeys` at the slice level: no slice
operation at all, only a new context node. -/
def WithoutAllKeysH (h : Heap) (octx : Option HContext) :
    Heap × Except GoFault HContext :=
  match octx with
  | none => (h, .error .nilCtx)
  | some c => (h, .ok (c.withValue none))

/-- Observable carrier of a slice-level context in a heap. -/
def hcarrier (h : Heap) (c : HContext) : List Field :=
  match c.fieldsValue with
  | some s => h.read s
  | none => []

/-- `GetFirstValue` at the slice level. -/
def GetFirstValueH (h : Heap) (octx : Option HContext) (key : String) :
    Except GoFault (Option GoVal × Bool) :=
  if key = "" then .ok (none, false)
  else
    match octx with
    | none => .error .nilCtx
    | some c =>
      match c.fieldsValue with
      | none => .ok (none, false)
      | some s =>
        match findFirst (h.read s) key with
        | some v => .ok (some v, true)
        | none => .ok (none, false)

/-- `HasKey` at the slice level. -/
def HasKeyH (h : Heap) (octx : Option HContext) (key : String) :
    Except GoFault Bool :=
  if key = "" then .ok false
  else
    match octx with
    | none => .error .nilCtx
    | some c =>
      match c.fieldsValue with
      | none => .ok false
      | some s => .ok (hasKeyIn (h.read s) key)

/-- The record mutation of `Handler.Handle` at the slice level. -/
def addCtxAttrsH (h : Heap) (ctx : HContext) (r : Record) : Record :=
  match ctx.fieldsValue with
  | some s => addFieldsLoop r (h.read s)
  | none => r

/-- All backing arrays of heap `h` survive unchanged into heap `h'`
(new arrays may have been added, and added arrays may have been written). -/
def Heap.Keeps (h h' : Heap) : Prop :=
  h'.mem.take h.mem.length = h.mem

/-- The slice bound in a context (if any) points below the allocation
frontier of the heap — i.e. the context is published in `h`. -/
def HContext.InBounds (c : HContext) (h : Heap) : Prop :=
  match c.fieldsValue with
  | some s => s.arr < h.mem.length
  | none => True

/-- Well-formedness of a slice in a heap: the backing array exists and is
at least as long as the capacity (every array the code allocates has
exactly its capacity as length). -/
def Slice.Wf (s : Slice) (h : Heap) : Prop :=
  s.arr < h.mem.length ∧ s.len ≤ s.cap ∧ s.cap ≤ (h.mem.getD s.arr []).length

/-- Observable carrier of a possibly-nil slice-level context. -/
def hcarrierO (h : Heap) : Option HContext → List Field
  | none => []
  | some c => hcarrier h c

end SlogctxHeap

/-! ## Basic lemmas about the value-level model -/

namespace Slogctx

theorem carrier_getD (octx : Option Context) :
    (octx.getD Context.background).carrier = carrierO octx := by
  cases octx <;> rfl

theorem parseFields_eq_filterMap : ∀ args : List GoVal,
    parseFields args = (pairsOf args).filterMap keepPair
  | [] => rfl
  | [_] => rfl
  | k :: v :: rest => by
    have ih := parseFields_eq_filterMap rest
    cases hk : k.asString with
    | none => simp [parseFields, pairsOf, keepPair, hk, ih]
    | some s =>
      by_cases hs : s = "" <;>
        simp [parseFields, pairsOf, keepPair, hk, hs, ih]

theorem withValues_carrier (octx : Option Context) (args : List GoVal) :
    (WithValues octx args).carrier = carrierO octx ++ parseFields args := by
  have hc := carrier_getD octx
  unfold WithValues
  by_cases h : parseFields args = []
  · simp [h, hc]
  · simp only [h, if_false]
    cases hv : (octx.getD Context.background).fieldsValue with
    | none =>
      have h0 : carrierO octx = [] := by
        rw [← hc]; simp [Context.carrier, hv]
      simp [h, h0, Context.carrier, Context.fieldsValue]
    | some old =>
      have h0 : carrierO octx = old := by
        rw [← hc]; simp [Context.carrier, hv]
      by_cases ho : old = [] <;>
        simp [h, ho, h0, Context.carrier, Context.fieldsValue]

theorem addFieldsLoop_eq : ∀ (r : Record) (l : List Field),
    addFieldsLoop r l = { r with attrs := r.attrs ++ l.map Field.toAttr }
  | r, [] => by simp [addFieldsLoop]
  | r, f :: rest => by
    rw [addFieldsLoop, addFieldsLoop_eq]
    simp [Record.addAttrs, Field.toAttr]

theorem addCtxAttrs_eq (c : Context) (r : Record) :
    addCtxAttrs c r = { r with attrs := r.attrs ++ c.carrier.map Field.toAttr } := by
  unfold addCtxAttrs
  cases hv : c.fieldsValue with
  | none =>
    show r = _
    simp [Context.carrier, hv]
  | some l =>
    show addFieldsLoop r l = _
    rw [addFieldsLoop_eq]
    simp [Context.carrier, hv]

theorem withValues_noop (c : Context) (args : List GoVal)
    (h : parseFields args = []) : WithValues (some c) args = c := by
  simp [WithValues, h]

theorem withoutKeys_empty (octx : Option Context) : WithoutKeys octx [] = octx := by
  cases octx <;> rfl

theorem applyChain_noop (c : Context) : ∀ ops : List CtxOp,
    (∀ op ∈ ops, op.IsNoOp) → applyChain (some c) ops = some c
  | [], _ => rfl
  | op :: rest, h => by
    have h1 : op.IsNoOp := h op (List.mem_cons_self _ _)
    have hrest : ∀ o ∈ rest, o.IsNoOp := fun o ho => h o (List.mem_cons_of_mem _ ho)
    have step : applyOp (some c) op = some c := by
      cases op with
      | addVals args => simp [applyOp, withValues_noop c args h1]
      | dropKeys keys =>
        have hk : keys = [] := h1
        simp [applyOp, hk, withoutKeys_empty]
    calc applyChain (some c) (op :: rest)
        = applyChain (applyOp (some c) op) rest := rfl
      _ = applyChain (some c) rest := by rw [step]
      _ = some c := applyChain_noop c rest hrest

/-! ## Claim theorems (value level) -/

/-- Claim C1: for every context (nil treated as the empty root context)
and argument list, `WithValues` keeps exactly the pairs whose key position
holds a non-empty string, drops the odd trailing argument, and returns a
context whose carrier is the old field sequence with the kept fields
appended in their original relative order, duplicates retained. -/
theorem withValues_spec (octx : Option Context) (args : List GoVal) :
    (WithValues octx args).carrier =
      carrierO octx ++ (pairsOf args).filterMap keepPair ∧
    WithValues none args = WithValues (some .background) args := by
  refine ⟨?_, rfl⟩
  rw [← parseFields_eq_filterMap]
  exact withValues_carrier octx args

/-- Claim C2: `Handle` appends every carrier field, in insertion order, to
the record as an attribute without disturbing the attributes already
present, then delegates to the wrapped sink and returns exactly that
call's result; with no carrier bound the record is delegated unmodified,
and no error originates in the decorator itself. -/
theorem handle_spec {σ ε : Type} (sig : SinkSig σ ε) (s : σ) (ctx : Context)
    (r : Record) :
    (∀ F, ctx.fieldsValue = some F →
      Handler.Handle sig (NewHandler s) ctx r =
        sig.handleF s ctx { r with attrs := r.attrs ++ F.map Field.toAttr }) ∧
    (ctx.fieldsValue = none →
      Handler.Handle sig (NewHandler s) ctx r = sig.handleF s ctx r) := by
  constructor
  · intro F hF
    unfold Handler.Handle NewHandler
    rw [addCtxAttrs_eq]
    simp [Context.carrier, hF]
  · intro hF
    unfold Handler.Handle NewHandler
    rw [addCtxAttrs_eq]
    simp [Context.carrier, hF]

/-- Witness for C2 at a concrete recording sink, context and record. -/
theorem handle_spec_witness :
    (Context.withValue .background
        (some [⟨"user", .str "Jan"⟩])).fieldsValue = some [⟨"user", .str "Jan"⟩] ∧
    Handler.Handle ⟨fun _ _ _ => true, fun st _ r => some (st, r), fun st _ => st,
        fun st _ => st⟩ (NewHandler 7)
        (Context.withValue .background (some [⟨"user", .str "Jan"⟩]))
        ⟨0, "msg", [⟨"site", .int 3⟩]⟩ =
      some (7, ⟨0, "msg", [⟨"site", .int 3⟩, ⟨"user", .str "Jan"⟩]⟩) :=
  ⟨rfl, (handle_spec (σ := Nat) (ε := Nat × Record)
    ⟨fun _ _ _ => true, fun st _ r => some (st, r), fun st _ => st, fun st _ => st⟩
    7 (Context.withValue .background (some [⟨"user", .str "Jan"⟩]))
    ⟨0, "msg", [⟨"site", .int 3⟩]⟩).1 [⟨"user", .str "Jan"⟩] rfl⟩

/-- Claim C8: `WithAttrs` and `WithGroup` return new decorators wrapping
`wrapped.WithAttrs(attrs)` and `wrapped.WithGroup(name)` respectively, so
the returned handlers still inject the context-carried fields, under their
bare keys (no group qualification by the decorator). -/
theorem withAttrs_withGroup_spec {σ ε : Type} (sig : SinkSig σ ε) (hd : Handler σ)
    (attrs : List Attr) (name : String) (ctx : Context) (r : Record) :
    Handler.WithAttrs sig hd attrs = ⟨sig.withAttrsF hd.wrapped attrs⟩ ∧
    Handler.WithGroup sig hd name = ⟨sig.withGroupF hd.wrapped name⟩ ∧
    Handler.Handle sig (Handler.WithAttrs sig hd attrs) ctx r =
      sig.handleF (sig.withAttrsF hd.wrapped attrs) ctx
        { r with attrs := r.attrs ++ ctx.carrier.map Field.toAttr } ∧
    Handler.Handle sig (Handler.WithGroup sig hd name) ctx r =
      sig.handleF (sig.withGroupF hd.wrapped name) ctx
        { r with attrs := r.attrs ++ ctx.carrier.map Field.toAttr } := by
  refine ⟨rfl, rfl, ?_, ?_⟩ <;>
    simp [Handler.Handle, Handler.WithAttrs, Handler.WithGroup, addCtxAttrs_eq]

/-- Claim C9: `WithValues` with zero valid pairs and `WithoutKeys` with an
empty key list return the input context itself; a carrier with field
sequence `F` emits exactly `|F|` attributes with identical keys, values
and order regardless of interleaved no-op calls. -/
theorem noop_spec (c : Context) (octx : Option Context) (args : List GoVal)
    (ops : List CtxOp) (r : Record)
    (hargs : parseFields args = []) (hops : ∀ op ∈ ops, op.IsNoOp) :
    WithValues (some c) args = c ∧
    WithoutKeys octx [] = octx ∧
    applyChain (some c) ops = some c ∧
    (addCtxAttrs c r).attrs = r.attrs ++ c.carrier.map Field.toAttr ∧
    (addCtxAttrs c r).attrs.length = r.attrs.length + c.carrier.length := by
  refine ⟨withValues_noop c args hargs, withoutKeys_empty octx,
    applyChain_noop c ops hops, ?_, ?_⟩
  · rw [addCtxAttrs_eq]
  · rw [addCtxAttrs_eq]
    simp

/-- Witness for C9: a context carrying two fields, a chain of two no-op
calls (an add whose pairs are all filtered out, a remove with no keys). -/
theorem noop_spec_witness :
    parseFields [.str "", .int 1, .int 5, .str "x", .str "tail"] = [] ∧
    (∀ op ∈ ([.addVals [.str "", .int 1], .dropKeys []] : List CtxOp), op.IsNoOp) ∧
    applyChain (some (Context.withValue .background
        (some [⟨"a", .int 1⟩, ⟨"b", .int 2⟩])))
      [.addVals [.str "", .int 1], .dropKeys []] =
      some (Context.withValue .background (some [⟨"a", .int 1⟩, ⟨"b", .int 2⟩])) :=
  ⟨by decide, by decide,
    (noop_spec (Context.withValue .background (some [⟨"a", .int 1⟩, ⟨"b", .int 2⟩]))
      none [.str "", .int 1, .int 5, .str "x", .str "tail"]
      [.addVals [.str "", .int 1], .dropKeys []] ⟨0, "m", []⟩
      (by decide) (by decide)).2.2.1⟩

theorem findFirst_eq_none_iff : ∀ (l : List Field) (key : String),
    findFirst l key = none ↔ ∀ f ∈ l, f.key ≠ key
  | [], key => by simp [findFirst]
  | f :: rest, key => by
    by_cases hf : f.key = key
    · simp [findFirst, hf]
    · simp [findFirst, hf, findFirst_eq_none_iff rest key]

theorem findFirst_eq_some_iff : ∀ (l : List Field) (key : String) (v : GoVal),
    findFirst l key = some v ↔
      ∃ l₁ l₂, l = l₁ ++ ⟨key, v⟩ :: l₂ ∧ ∀ f ∈ l₁, f.key ≠ key
  | [], key, v => by simp [findFirst]
  | g :: rest, key, v => by
    by_cases hg : g.key = key
    · simp only [findFirst, if_pos hg, Option.some.injEq]
      constructor
      · rintro rfl
        refine ⟨[], rest, ?_, by simp⟩
        cases g with
        | mk k w => cases hg; rfl
      · rintro ⟨l₁, l₂, hl, hnot⟩
        cases l₁ with
        | nil =>
          rw [List.nil_append] at hl
          injection hl with h1 _
          rw [h1]
        | cons p l₁' =>
          exfalso
          rw [List.cons_append] at hl
          injection hl with h1 _
          have hp : p.key ≠ key := hnot p (List.mem_cons_self _ _)
          rw [← h1] at hp
          exact hp hg
    · simp only [findFirst, if_neg hg]
      rw [findFirst_eq_some_iff rest key v]
      constructor
      · rintro ⟨l₁, l₂, hl, hnot⟩
        refine ⟨g :: l₁, l₂, by rw [hl, List.cons_append], ?_⟩
        intro f hf
        rcases List.mem_cons.1 hf with rfl | hf
        · exact hg
        · exact hnot f hf
      · rintro ⟨l₁, l₂, hl, hnot⟩
        cases l₁ with
        | nil =>
          exfalso
          rw [List.nil_append] at hl
          injection hl with h1 _
          rw [h1] at hg
          exact hg rfl
        | cons p l₁' =>
          rw [List.cons_append] at hl
          injection hl with _ h2
          exact ⟨l₁', l₂, h2, fun f hf => hnot f (List.mem_cons_of_mem _ hf)⟩

theorem hasKeyIn_eq_isSome : ∀ (l : List Field) (key : String),
    hasKeyIn l key = (findFirst l key).isSome
  | [], _ => rfl
  | f :: rest, key => by
    by_cases hf : f.key = key
    · simp [hasKeyIn, findFirst, hf]
    · simp [hasKeyIn, findFirst, hf, hasKeyIn_eq_isSome rest key]

theorem findFirst_append_of_none (l₁ l₂ : List Field) (key : String)
    (h : findFirst l₁ key = none) :
    findFirst (l₁ ++ l₂) key = findFirst l₂ key := by
  induction l₁ with
  | nil => rfl
  | cons f rest ih =>
    by_cases hf : f.key = key
    · rw [findFirst, if_pos hf] at h; cases h
    · rw [findFirst, if_neg hf] at h
      rw [List.cons_append, findFirst, if_neg hf]
      exact ih h

theorem getFirstValue_of_find_some (c : Context) (key : String) (v : GoVal)
    (hk : ¬ key = "") (h : findFirst c.carrier key = some v) :
    GetFirstValue (some c) key = .ok (some v, true) := by
  cases hv : c.fieldsValue with
  | none =>
    have hc : c.carrier = [] := by simp [Context.carrier, hv]
    rw [hc] at h
    cases h
  | some l =>
    have hc : c.carrier = l := by simp [Context.carrier, hv]
    rw [hc] at h
    simp [GetFirstValue, hk, hv, h]

theorem getFirstValue_of_find_none (c : Context) (key : String)
    (h : findFirst c.carrier key = none) :
    GetFirstValue (some c) key = .ok (none, false) := by
  by_cases hk : key = ""
  · simp [GetFirstValue, hk]
  · cases hv : c.fieldsValue with
    | none => simp [GetFirstValue, hk, hv]
    | some l =>
      have hc : c.carrier = l := by simp [Context.carrier, hv]
      rw [hc] at h
      simp [GetFirstValue, hk, hv, h]

theorem hasKey_eq (c : Context) (key : String) (hk : ¬ key = "") :
    HasKey (some c) key = .ok (hasKeyIn c.carrier key) := by
  cases hv : c.fieldsValue with
  | none => simp [HasKey, hk, hv, Context.carrier, hasKeyIn]
  | some l => simp [HasKey, hk, hv, Context.carrier]

theorem lookups_absent (c : Context) (hc : c.carrier = []) (key : String) :
    GetFirstValue (some c) key = .ok (none, false) ∧
      HasKey (some c) key = .ok false := by
  constructor
  · apply getFirstValue_of_find_none
    rw [hc]
    rfl
  · by_cases hk : key = ""
    · simp [HasKey, hk]
    · rw [hasKey_eq c key hk, hc]
      rfl

theorem withoutKeys_eq (c : Context) (keys : List String) :
    WithoutKeys (some c) keys =
      if keys = [] then some c
      else
        match c.fieldsValue with
        | none => some c
        | some l =>
          if l = [] then some c
          else
            if l.filter (fun f => !keys.contains f.key) = [] then
              some (c.withValue none)
            else some (c.withValue (some (l.filter (fun f => !keys.contains f.key)))) :=
  rfl

theorem withoutKeys_eq_none (c : Context) (keys : List String) (hk : ¬ keys = [])
    (hv : c.fieldsValue = none) : WithoutKeys (some c) keys = some c := by
  rw [withoutKeys_eq, if_neg hk, hv]

theorem withoutKeys_eq_some (c : Context) (keys : List String) (hk : ¬ keys = [])
    (l : List Field) (hv : c.fieldsValue = some l) :
    WithoutKeys (some c) keys =
      if l = [] then some c
      else
        if l.filter (fun f => !keys.contains f.key) = [] then some (c.withValue none)
        else some (c.withValue (some (l.filter (fun f => !keys.contains f.key)))) := by
  rw [withoutKeys_eq, if_neg hk, hv]

theorem withoutKeys_isSome (c : Context) (keys : List String) :
    ∃ c', WithoutKeys (some c) keys = some c' := by
  by_cases hk : keys = []
  · exact ⟨c, by rw [withoutKeys_eq, if_pos hk]⟩
  · cases hv : c.fieldsValue with
    | none => exact ⟨c, withoutKeys_eq_none c keys hk hv⟩
    | some l =>
      rw [withoutKeys_eq_some c keys hk l hv]
      by_cases hl : l = []
      · exact ⟨c, by rw [if_pos hl]⟩
      · rw [if_neg hl]
        by_cases hr : l.filter (fun f => !keys.contains f.key) = []
        · exact ⟨_, by rw [if_pos hr]⟩
        · exact ⟨_, by rw [if_neg hr]⟩

theorem withoutKeys_carrier (octx : Option Context) (keys : List String) :
    carrierO (WithoutKeys octx keys) =
      (carrierO octx).filter (fun f => !keys.contains f.key) := by
  cases octx with
  | none => rfl
  | some c =>
    by_cases hk : keys = []
    · subst hk
      rw [withoutKeys_eq, if_pos rfl]
      simp [carrierO]
    · cases hv : c.fieldsValue with
      | none =>
        have hc : c.carrier = [] := by simp [Context.carrier, hv]
        rw [withoutKeys_eq_none c keys hk hv]
        simp [carrierO, hc]
      | some l =>
        have hc : c.carrier = l := by simp [Context.carrier, hv]
        rw [withoutKeys_eq_some c keys hk l hv]
        by_cases hl : l = []
        · rw [if_pos hl]
          subst hl
          simp [carrierO, hc]
        · rw [if_neg hl]
          by_cases hr : l.filter (fun f => !keys.contains f.key) = []
          · rw [if_pos hr]
            have h1 : carrierO (some (c.withValue none)) = [] := rfl
            rw [h1, show carrierO (some c) = l from hc, hr]
          · rw [if_neg hr]
            have h1 : carrierO (some (c.withValue
                (some (l.filter fun f => !keys.contains f.key)))) =
                l.filter (fun f => !keys.contains f.key) := rfl
            rw [h1, show carrierO (some c) = l from hc]

/-- Claim C3: for a non-empty key, `GetFirstValue` answers `(v, true)`
exactly when `v` is the value of the earliest matching field in insertion
order, and `(nil, false)` exactly when no field matches; the empty key
answers `(nil, false)`; and the spec example
`GetFirst(Add(Add(ctx,"a",1),"a",2), "a") = (1, true)` holds whenever the
starting context does not already carry an `"a"` field. -/
theorem getFirstValue_spec (c : Context) (key : String) (v : GoVal)
    (hk : key ≠ "") :
    (GetFirstValue (some c) key = .ok (some v, true) ↔
      ∃ l₁ l₂, c.carrier = l₁ ++ ⟨key, v⟩ :: l₂ ∧ ∀ f ∈ l₁, f.key ≠ key) ∧
    (GetFirstValue (some c) key = .ok (none, false) ↔
      ∀ f ∈ c.carrier, f.key ≠ key) ∧
    GetFirstValue (some c) "" = .ok (none, false) ∧
    (hasKeyIn c.carrier "a" = false →
      GetFirstValue (some (WithValues (some (WithValues (some c)
          [.str "a", .int 1])) [.str "a", .int 2])) "a" =
        .ok (some (.int 1), true)) := by
  refine ⟨?_, ?_, by simp [GetFirstValue], ?_⟩
  · rw [← findFirst_eq_some_iff]
    constructor
    · intro h
      cases hf : findFirst c.carrier key with
      | some u =>
        rw [getFirstValue_of_find_some c key u hk hf] at h
        injection h with h'
        have hu := congrArg Prod.fst h'
        injection hu with hu'
        rw [← hu']
      | none =>
        rw [getFirstValue_of_find_none c key hf] at h
        simp at h
    · exact getFirstValue_of_find_some c key v hk
  · rw [← findFirst_eq_none_iff]
    constructor
    · intro h
      cases hf : findFirst c.carrier key with
      | some u =>
        rw [getFirstValue_of_find_some c key u hk hf] at h
        simp at h
      | none => rfl
    · exact getFirstValue_of_find_none c key
  · intro ha
    have hnone : findFirst c.carrier "a" = none := by
      have h := hasKeyIn_eq_isSome c.carrier "a"
      rw [ha] at h
      cases hf : findFirst c.carrier "a" with
      | some u => rw [hf] at h; simp at h
      | none => rfl
    apply getFirstValue_of_find_some _ _ _ (by simp)
    have hcar : (WithValues (some (WithValues (some c) [.str "a", .int 1]))
        [.str "a", .int 2]).carrier =
        c.carrier ++ ([⟨"a", .int 1⟩] ++ [⟨"a", .int 2⟩]) := by
      rw [withValues_carrier]
      show (WithValues (some c) [.str "a", .int 1]).carrier ++ [⟨"a", .int 2⟩] = _
      rw [withValues_carrier]
      show (c.carrier ++ [⟨"a", .int 1⟩]) ++ [⟨"a", .int 2⟩] = _
      rw [List.append_assoc]
    rw [hcar, findFirst_append_of_none _ _ _ hnone]
    rfl

/-- Witness for C3: a context with carrier `[("b", 0)]` and the key
`"a"`. -/
theorem getFirstValue_spec_witness :
    ("a" : String) ≠ "" ∧
    (GetFirstValue (some (Context.withValue .background (some [⟨"b", .int 0⟩])))
        "a" = .ok (none, false) ↔
      ∀ f ∈ (Context.withValue Context.background
          (some [⟨"b", .int 0⟩])).carrier, f.key ≠ "a") :=
  ⟨by decide,
    (getFirstValue_spec (Context.withValue .background (some [⟨"b", .int 0⟩]))
      "a" (.int 1) (by decide)).2.1⟩

/-- Claim C4: `WithUniqueValues` parses and filters like `WithValues`,
removes every existing field whose key occurs in the new batch, appends
the batch at the end preserving the order of untouched fields; the spec
example emits `role=admin user=Bob session=xyz`. -/
theorem withUniqueValues_spec (octx : Option Context) (args : List GoVal) :
    (WithUniqueValues octx args).carrier =
      (carrierO octx).filter
        (fun f => !(((pairsOf args).filterMap keepPair).map Field.key).contains f.key)
      ++ (pairsOf args).filterMap keepPair ∧
    (addCtxAttrs (WithUniqueValues (some (WithValues (some .background)
        [.str "user", .str "Alice", .str "role", .str "admin"]))
        [.str "user", .str "Bob", .str "session", .str "xyz"])
        ⟨0, "Second", []⟩).attrs =
      [⟨"role", .str "admin"⟩, ⟨"user", .str "Bob"⟩, ⟨"session", .str "xyz"⟩] := by
  constructor
  · rw [← parseFields_eq_filterMap]
    unfold WithUniqueValues
    by_cases h : parseFields args = []
    · simp [h, carrier_getD octx]
    · simp only [h, if_false]
      cases hv : (octx.getD Context.background).fieldsValue with
      | none =>
        have h0 : carrierO octx = [] := by
          rw [← carrier_getD octx]; simp [Context.carrier, hv]
        simp [h0, Context.carrier, Context.fieldsValue, hv]
      | some l =>
        have h0 : carrierO octx = l := by
          rw [← carrier_getD octx]; simp [Context.carrier, hv]
        simp [h0, Context.carrier, Context.fieldsValue, hv]
  · rfl

/-- Claim C5: `WithoutKeys` keeps exactly the fields whose key is not in
the key set, in order; nil context or empty key list return the input
unchanged; when no field remains the binding is cleared and subsequent
lookups observe no fields. -/
theorem withoutKeys_spec (octx : Option Context) (keys : List String)
    (c : Context) (key : String) :
    carrierO (WithoutKeys octx keys) =
      (carrierO octx).filter (fun f => !keys.contains f.key) ∧
    WithoutKeys none keys = none ∧
    WithoutKeys octx [] = octx ∧
    (carrierO (WithoutKeys (some c) keys) = [] →
      GetFirstValue (WithoutKeys (some c) keys) key = .ok (none, false) ∧
      HasKey (WithoutKeys (some c) keys) key = .ok false) := by
  refine ⟨withoutKeys_carrier octx keys, rfl, withoutKeys_empty octx, ?_⟩
  intro hempty
  obtain ⟨c', hc'⟩ := withoutKeys_isSome c keys
  rw [hc'] at hempty ⊢
  exact lookups_absent c' hempty key

/-- Witness for C5: removing both `"req"` fields from the spec example
leaves `user=Jan`; removing the only key empties the carrier and lookups
observe no fields. -/
theorem withoutKeys_spec_witness :
    carrierO (WithoutKeys (some (WithValues (some .background)
        [.str "req", .str "abc", .str "req", .str "def", .str "user", .str "Jan"]))
        ["req"]) = [⟨"user", .str "Jan"⟩] ∧
    GetFirstValue (WithoutKeys (some (WithValues (some .background)
        [.str "a", .int 1])) ["a"]) "a" = .ok (none, false) :=
  ⟨by
    have h := (withoutKeys_spec (some (WithValues (some .background)
      [.str "req", .str "abc", .str "req", .str "def", .str "user", .str "Jan"]))
      ["req"] .background "a").1
    rw [h]
    rfl,
   ((withoutKeys_spec none ["a"] (WithValues (some .background)
      [.str "a", .int 1]) "a").2.2.2 (by rfl)).1⟩

/-- Claim C6: `WithoutAllKeys` on a non-nil context always succeeds and
yields a context on which `GetFirstValue` and `HasKey` report absent for
every key and on which `Handle` delegates the record unmodified (zero
propagated attributes, call-site attributes untouched); a context emptied
by `WithoutKeys` is observationally identical under the two accessors. -/
theorem withoutAllKeys_spec {σ ε : Type} (c : Context) (key : String)
    (r : Record) (sig : SinkSig σ ε) (s : σ) (c2 : Context)
    (keys : List String) :
    (∃ c', WithoutAllKeys (some c) = .ok c') ∧
    (∀ c', WithoutAllKeys (some c) = .ok c' →
      GetFirstValue (some c') key = .ok (none, false) ∧
      HasKey (some c') key = .ok false ∧
      addCtxAttrs c' r = r ∧
      Handler.Handle sig (NewHandler s) c' r = sig.handleF s c' r) ∧
    (carrierO (WithoutKeys (some c2) keys) = [] →
      GetFirstValue (WithoutKeys (some c2) keys) key = .ok (none, false) ∧
      HasKey (WithoutKeys (some c2) keys) key = .ok false) := by
  refine ⟨⟨c.withValue none, rfl⟩, ?_, ?_⟩
  · intro c' hc'
    have heq : c' = c.withValue none := by
      injection hc' with h
      exact h.symm
    subst heq
    have hcar : (c.withValue none).carrier = [] := rfl
    obtain ⟨h1, h2⟩ := lookups_absent _ hcar key
    refine ⟨h1, h2, ?_, ?_⟩
    · rw [addCtxAttrs_eq, hcar]
      simp
    · unfold Handler.Handle NewHandler
      rw [addCtxAttrs_eq, hcar]
      simp
  · intro hempty
    obtain ⟨c', hc'⟩ := withoutKeys_isSome c2 keys
    rw [hc'] at hempty ⊢
    exact lookups_absent c' hempty key

/-- Witness for C6 at a trivial sink and a context carrying two fields. -/
theorem withoutAllKeys_spec_witness :
    WithoutAllKeys (some (Context.withValue .background
        (some [⟨"id", .int 123⟩, ⟨"status", .str "ok"⟩]))) =
      .ok (Context.withValue (Context.withValue .background
        (some [⟨"id", .int 123⟩, ⟨"status", .str "ok"⟩])) none) ∧
    GetFirstValue (some (Context.withValue (Context.withValue .background
        (some [⟨"id", .int 123⟩, ⟨"status", .str "ok"⟩])) none)) "id" =
      .ok (none, false) :=
  ⟨rfl,
    ((withoutAllKeys_spec (σ := Unit) (ε := Unit)
      (Context.withValue .background (some [⟨"id", .int 123⟩, ⟨"status", .str "ok"⟩]))
      "id" ⟨0, "m", []⟩ ⟨fun _ _ _ => true, fun _ _ _ => none, fun st _ => st,
        fun st _ => st⟩ () .background []).2.1 _ rfl).1⟩

/-- Claim C10: for the nil context, `GetFirstValue` and `HasKey` with an
empty key answer without faulting, with a non-empty key they dereference
nil and fault; `WithValues` and `WithUniqueValues` substitute the empty
root, while `WithoutKeys` returns nil unchanged and `WithoutAllKeys`
faults. -/
theorem nil_asymmetry_spec (args : List GoVal) (keys : List String) (key : String)
    (hkey : key ≠ "") :
    GetFirstValue none "" = .ok (none, false) ∧
    HasKey none "" = .ok false ∧
    GetFirstValue none key = .error .nilCtx ∧
    HasKey none key = .error .nilCtx ∧
    WithValues none args = WithValues (some .background) args ∧
    WithUniqueValues none args = WithUniqueValues (some .background) args ∧
    WithoutKeys none keys = none ∧
    WithoutAllKeys none = .error .nilCtx := by
  refine ⟨rfl, rfl, ?_, ?_, rfl, rfl, rfl, rfl⟩ <;>
    simp [GetFirstValue, HasKey, hkey]

/-- Witness for C10 at the key `"id"`. -/
theorem nil_asymmetry_spec_witness :
    ("id" : String) ≠ "" ∧ GetFirstValue none "id" = .error .nilCtx :=
  ⟨by decide, (nil_asymmetry_spec [] [] "id" (by decide)).2.2.1⟩

end Slogctx

/-! ## Frame lemmas for the slice-level model -/

namespace SlogctxHeap

open Slogctx (GoVal Field parseFields GoFault Record Attr)

theorem take_set_of_le {α : Type} (x : α) : ∀ (l : List α) (i n : Nat),
    n ≤ i → (l.set i x).take n = l.take n
  | [], _, _, _ => by simp
  | a :: l, 0, n, h => by
    have h0 : n = 0 := Nat.le_zero.mp h
    simp [h0]
  | a :: l, i+1, 0, h => by simp
  | a :: l, i+1, n+1, h => by
    simp only [List.set, List.take]
    rw [take_set_of_le x l i n (Nat.le_of_succ_le_succ h)]

theorem keeps_refl (h : Heap) : h.Keeps h := List.take_length h.mem

theorem keeps_length_le (hb h : Heap) (hk : hb.Keeps h) :
    hb.mem.length ≤ h.mem.length := by
  have h1 := congrArg List.length hk
  rw [List.length_take] at h1
  exact min_eq_left_iff.mp h1

theorem keeps_append (hb h : Heap) (x : List Field) (hk : hb.Keeps h) :
    hb.Keeps ⟨h.mem ++ [x]⟩ := by
  show (h.mem ++ [x]).take hb.mem.length = hb.mem
  rw [List.take_append_of_le_length (keeps_length_le hb h hk)]
  exact hk

theorem keeps_set (hb h : Heap) (i : Nat) (x : List Field) (hk : hb.Keeps h)
    (hi : hb.mem.length ≤ i) : hb.Keeps ⟨h.mem.set i x⟩ := by
  show (h.mem.set i x).take hb.mem.length = hb.mem
  rw [take_set_of_le x h.mem i hb.mem.length hi]
  exact hk

theorem read_keeps (hb h : Heap) (s : Slice) (hk : hb.Keeps h)
    (hs : s.arr < hb.mem.length) : h.read s = hb.read s := by
  have h1 : h.mem.get? s.arr = hb.mem.get? s.arr := by
    rw [← hk, List.get?_take hs]
  have h2 : h.mem.getD s.arr [] = hb.mem.getD s.arr [] := by
    show (h.mem.get? s.arr).getD [] = (hb.mem.get? s.arr).getD []
    rw [h1]
  show (h.mem.getD s.arr []).take s.len = (hb.mem.getD s.arr []).take s.len
  rw [h2]

theorem allocList_keeps (hb h : Heap) (l : List Field) (hk : hb.Keeps h) :
    hb.Keeps (h.allocList l).1 ∧ hb.mem.length ≤ (h.allocList l).2.arr :=
  ⟨keeps_append hb h l hk, keeps_length_le hb h hk⟩

theorem allocCap_keeps (hb h : Heap) (c : Nat) (hk : hb.Keeps h) :
    hb.Keeps (h.allocCap c).1 ∧ hb.mem.length ≤ (h.allocCap c).2.arr :=
  ⟨keeps_append hb h _ hk, keeps_length_le hb h hk⟩

theorem appendMany_keeps (hb h : Heap) (s : Slice) (xs : List Field)
    (hk : hb.Keeps h) (ha : hb.mem.length ≤ s.arr) :
    hb.Keeps (h.appendMany s xs).1 ∧
      hb.mem.length ≤ (h.appendMany s xs).2.arr := by
  unfold Heap.appendMany
  by_cases hc : s.len + xs.length ≤ s.cap
  · rw [if_pos hc]
    exact ⟨keeps_set hb h s.arr _ hk ha, ha⟩
  · rw [if_neg hc]
    exact ⟨keeps_append hb h _ hk, keeps_length_le hb h hk⟩

theorem copyFilterLoop_keeps (keep : Field → Bool) (hb : Heap) :
    ∀ (l : List Field) (h : Heap) (s : Slice),
      hb.Keeps h → hb.mem.length ≤ s.arr →
      hb.Keeps (copyFilterLoop keep h s l).1 ∧
        hb.mem.length ≤ (copyFilterLoop keep h s l).2.arr
  | [], h, s, hk, ha => ⟨hk, ha⟩
  | f :: rest, h, s, hk, ha => by
    simp only [copyFilterLoop]
    by_cases hf : keep f
    · rw [if_pos hf]
      obtain ⟨hk', ha'⟩ := appendMany_keeps hb h s [f] hk ha
      exact copyFilterLoop_keeps keep hb rest _ _ hk' ha'
    · rw [if_neg hf]
      exact copyFilterLoop_keeps keep hb rest h s hk ha

theorem withValuesH_keeps (h : Heap) (octx : Option HContext) (args : List GoVal) :
    h.Keeps (WithValuesH h octx args).1 := by
  by_cases hn : parseFields args = []
  · simp only [WithValuesH, hn, if_true]
    exact keeps_refl h
  · cases hv : (octx.getD HContext.background).fieldsValue with
    | none =>
      simp only [WithValuesH, hn, if_false, hv]
      exact (allocList_keeps h h _ (keeps_refl h)).1
    | some s =>
      by_cases hl : s.len = 0
      · simp only [WithValuesH, hn, if_false, hv, hl, if_true]
        exact (allocList_keeps h h _ (keeps_refl h)).1
      · simp only [WithValuesH, hn, if_false, hv, hl, if_false]
        obtain ⟨hk1, ha1⟩ := allocList_keeps h h (h.read s) (keeps_refl h)
        exact (appendMany_keeps h _ _ _ hk1 ha1).1

theorem withUniqueValuesH_keeps (h : Heap) (octx : Option HContext)
    (args : List GoVal) : h.Keeps (WithUniqueValuesH h octx args).1 := by
  unfold WithUniqueValuesH
  by_cases hn : parseFields args = []
  · simp only [hn, if_pos]
    exact keeps_refl h
  · simp only [hn, if_false]
    obtain ⟨hk1, _⟩ := allocList_keeps h h (parseFields args) (keeps_refl h)
    obtain ⟨hk2, ha2⟩ := allocCap_keeps h _ _ hk1
    obtain ⟨hk3, ha3⟩ := copyFilterLoop_keeps _ h _ _ _ hk2 ha2
    exact (appendMany_keeps h _ _ _ hk3 ha3).1

theorem withoutKeysH_keeps (h : Heap) (octx : Option HContext)
    (keys : List String) : h.Keeps (WithoutKeysH h octx keys).1 := by
  cases octx with
  | none => exact keeps_refl h
  | some c =>
    by_cases hk : keys = []
    · simp only [WithoutKeysH, hk, if_true]
      exact keeps_refl h
    · cases hv : c.fieldsValue with
      | none =>
        simp only [WithoutKeysH, hk, if_false, hv]
        exact keeps_refl h
      | some s =>
        by_cases hl : s.len = 0
        · simp only [WithoutKeysH, hk, if_false, hv, hl, if_true]
          exact keeps_refl h
        · obtain ⟨hk2, ha2⟩ := allocCap_keeps h h s.len (keeps_refl h)
          obtain ⟨hk3, _⟩ := copyFilterLoop_keeps
            (fun f => !keys.contains f.key) h (h.read s) _ _ hk2 ha2
          simp only [WithoutKeysH, hk, if_false, hv, hl]
          by_cases hz : (copyFilterLoop (fun f => !keys.contains f.key)
              (h.allocCap s.len).1 (h.allocCap s.len).2 (h.read s)).2.len = 0
          · simp only [hz, if_true]
            exact hk3
          · simp only [hz, if_false]
            exact hk3

theorem withoutAllKeysH_heap (h : Heap) (c : HContext) :
    (WithoutAllKeysH h (some c)).1 = h := rfl

theorem observations_eq (hb h : Heap) (c : HContext) (hk : hb.Keeps h)
    (hwf : c.InBounds hb) :
    hcarrier h c = hcarrier hb c ∧
    (∀ key, GetFirstValueH h (some c) key = GetFirstValueH hb (some c) key) ∧
    (∀ key, HasKeyH h (some c) key = HasKeyH hb (some c) key) ∧
    (∀ r, addCtxAttrsH h c r = addCtxAttrsH hb c r) := by
  cases hv : c.fieldsValue with
  | none =>
    refine ⟨?_, ?_, ?_, ?_⟩ <;>
      (intros; simp [hcarrier, GetFirstValueH, HasKeyH, addCtxAttrsH, hv])
  | some s =>
    have hs : s.arr < hb.mem.length := by
      unfold HContext.InBounds at hwf
      rw [hv] at hwf
      exact hwf
    have hr : h.read s = hb.read s := read_keeps hb h s hk hs
    refine ⟨?_, ?_, ?_, ?_⟩ <;>
      (intros; simp [hcarrier, GetFirstValueH, HasKeyH, addCtxAttrsH, hv, hr])

/-- Claim C7: no mutator changes the parent context's observable carrier.
All writes performed by `WithValues`, `WithUniqueValues` and `WithoutKeys`
target backing arrays allocated within the call (`slices.Clone`, `make`),
so every array published in the starting heap survives unchanged
(`Heap.Keeps`), and on the original context the carrier, `GetFirstValue`,
`HasKey` and the emission path read exactly what they read before;
`WithoutAllKeys` does not touch the heap at all. -/
theorem mutators_preserve_published_storage (h : Heap) (c : HContext)
    (args args2 : List GoVal) (keys : List String) (key : String) (r : Record)
    (hwf : c.InBounds h) :
    (h.Keeps (WithValuesH h (some c) args).1 ∧
      hcarrier (WithValuesH h (some c) args).1 c = hcarrier h c ∧
      GetFirstValueH (WithValuesH h (some c) args).1 (some c) key =
        GetFirstValueH h (some c) key ∧
      HasKeyH (WithValuesH h (some c) args).1 (some c) key =
        HasKeyH h (some c) key ∧
      addCtxAttrsH (WithValuesH h (some c) args).1 c r = addCtxAttrsH h c r) ∧
    (h.Keeps (WithUniqueValuesH h (some c) args2).1 ∧
      hcarrier (WithUniqueValuesH h (some c) args2).1 c = hcarrier h c ∧
      GetFirstValueH (WithUniqueValuesH h (some c) args2).1 (some c) key =
        GetFirstValueH h (some c) key ∧
      HasKeyH (WithUniqueValuesH h (some c) args2).1 (some c) key =
        HasKeyH h (some c) key ∧
      addCtxAttrsH (WithUniqueValuesH h (some c) args2).1 c r =
        addCtxAttrsH h c r) ∧
    (h.Keeps (WithoutKeysH h (some c) keys).1 ∧
      hcarrier (WithoutKeysH h (some c) keys).1 c = hcarrier h c ∧
      GetFirstValueH (WithoutKeysH h (some c) keys).1 (some c) key =
        GetFirstValueH h (some c) key ∧
      HasKeyH (WithoutKeysH h (some c) keys).1 (some c) key =
        HasKeyH h (some c) key ∧
      addCtxAttrsH (WithoutKeysH h (some c) keys).1 c r = addCtxAttrsH h c r) ∧
    (WithoutAllKeysH h (some c)).1 = h := by
  obtain ⟨a1, a2, a3, a4⟩ :=
    observations_eq h _ c (withValuesH_keeps h (some c) args) hwf
  obtain ⟨b1, b2, b3, b4⟩ :=
    observations_eq h _ c (withUniqueValuesH_keeps h (some c) args2) hwf
  obtain ⟨d1, d2, d3, d4⟩ :=
    observations_eq h _ c (withoutKeysH_keeps h (some c) keys) hwf
  exact ⟨⟨withValuesH_keeps h (some c) args, a1, a2 key, a3 key, a4 r⟩,
    ⟨withUniqueValuesH_keeps h (some c) args2, b1, b2 key, b3 key, b4 r⟩,
    ⟨withoutKeysH_keeps h (some c) keys, d1, d2 key, d3 key, d4 r⟩,
    withoutAllKeysH_heap h c⟩

/-- Witness for C7: one published array `["a" = 1]`, a context bound to
it, and a `WithValues` call appending `"b" = 2`; the parent still reads
`["a" = 1]`. -/
theorem mutators_preserve_witness :
    (HContext.withValue .background (some ⟨0, 1, 1⟩)).InBounds
      (Heap.mk [[⟨"a", .int 1⟩]]) ∧
    hcarrier (WithValuesH (Heap.mk [[⟨"a", .int 1⟩]])
        (some (HContext.withValue .background (some ⟨0, 1, 1⟩)))
        [.str "b", .int 2]).1
      (HContext.withValue .background (some ⟨0, 1, 1⟩)) =
      hcarrier (Heap.mk [[⟨"a", .int 1⟩]])
        (HContext.withValue .background (some ⟨0, 1, 1⟩)) :=
  ⟨Nat.one_pos,
    (mutators_preserve_published_storage (Heap.mk [[⟨"a", .int 1⟩]])
      (HContext.withValue .background (some ⟨0, 1, 1⟩))
      [.str "b", .int 2] [] [] "a" ⟨0, "m", []⟩ Nat.one_pos).1.2.1⟩

/-! ## Agreement of the slice-level model with the value-level model

The following lemmas verify that the slice-level functions compute the
same carriers as the value-level functions, so the two embeddings of the
source agree. -/

theorem read_length (h : Heap) (s : Slice) (hwf : s.Wf h) :
    (h.read s).length = s.len := by
  obtain ⟨-, h1, h2⟩ := hwf
  show ((h.mem.getD s.arr []).take s.len).length = s.len
  rw [List.length_take]
  exact Nat.min_eq_left (le_trans h1 h2)

theorem getD_concat (mem : List (List Field)) (l : List Field) :
    (mem ++ [l]).getD mem.length [] = l := by
  show ((mem ++ [l]).get? mem.length).getD [] = l
  rw [List.get?_concat_length]
  rfl

theorem allocList_read (h : Heap) (l : List Field) :
    (h.allocList l).1.read (h.allocList l).2 = l := by
  show ((h.mem ++ [l]).getD h.mem.length []).take l.length = l
  rw [getD_concat, List.take_length]

theorem allocList_wf (h : Heap) (l : List Field) :
    (h.allocList l).2.Wf (h.allocList l).1 := by
  refine ⟨?_, le_refl _, ?_⟩
  · show h.mem.length < (h.mem ++ [l]).length
    rw [List.length_append]
    simp
  · show l.length ≤ ((h.mem ++ [l]).getD h.mem.length []).length
    rw [getD_concat]

theorem allocCap_read (h : Heap) (c : Nat) :
    (h.allocCap c).1.read (h.allocCap c).2 = [] := rfl

theorem allocCap_wf (h : Heap) (c : Nat) :
    (h.allocCap c).2.Wf (h.allocCap c).1 := by
  refine ⟨?_, Nat.zero_le _, ?_⟩
  · show h.mem.length < (h.mem ++ [List.replicate c padField]).length
    rw [List.length_append]
    simp
  · show c ≤ ((h.mem ++ [List.replicate c padField]).getD h.mem.length []).length
    rw [getD_concat, List.length_replicate]

theorem length_writeAt (buf : List Field) (pos : Nat) (xs : List Field)
    (h : pos + xs.length ≤ buf.length) :
    (writeAt buf pos xs).length = buf.length := by
  unfold writeAt
  rw [List.length_append, List.length_append, List.length_take, List.length_drop]
  have hpos : pos ≤ buf.length := le_trans (Nat.le_add_right _ _) h
  rw [Nat.min_eq_left hpos]
  omega

theorem take_writeAt (buf : List Field) (pos : Nat) (xs : List Field)
    (h : pos ≤ buf.length) :
    (writeAt buf pos xs).take (pos + xs.length) = buf.take pos ++ xs := by
  unfold writeAt
  have hlen : (buf.take pos).length = pos := by
    rw [List.length_take]
    exact Nat.min_eq_left h
  rw [List.append_assoc]
  rw [show pos + xs.length = (buf.take pos).length + xs.length by rw [hlen]]
  rw [List.take_append]
  rw [show xs.length = (xs).length from rfl, List.take_left]

theorem appendMany_read (h : Heap) (s : Slice) (xs : List Field)
    (hwf : s.Wf h) :
    (h.appendMany s xs).1.read (h.appendMany s xs).2 = h.read s ++ xs ∧
      (h.appendMany s xs).2.Wf (h.appendMany s xs).1 := by
  obtain ⟨harr, hlen, hcap⟩ := hwf
  unfold Heap.appendMany
  by_cases hc : s.len + xs.length ≤ s.cap
  · rw [if_pos hc]
    have hbuf : s.len + xs.length ≤ (h.mem.getD s.arr []).length :=
      le_trans hc hcap
    have hget : (h.mem.set s.arr (writeAt (h.mem.getD s.arr []) s.len xs)).getD
        s.arr [] = writeAt (h.mem.getD s.arr []) s.len xs := by
      show ((h.mem.set s.arr _).get? s.arr).getD [] = _
      rw [List.get?_set_eq_of_lt _ harr]
      rfl
    constructor
    · show ((h.mem.set s.arr _).getD s.arr []).take (s.len + xs.length) = _
      rw [hget, take_writeAt _ _ _ (le_trans (Nat.le_add_right _ _) hbuf)]
      rfl
    · refine ⟨?_, hc, ?_⟩
      · show s.arr < (h.mem.set s.arr _).length
        rw [List.length_set]
        exact harr
      · show s.cap ≤ ((h.mem.set s.arr _).getD s.arr []).length
        rw [hget, length_writeAt _ _ _ hbuf]
        exact hcap
  · rw [if_neg hc]
    have hrl : (h.read s).length = s.len := by
      show ((h.mem.getD s.arr []).take s.len).length = s.len
      rw [List.length_take]
      exact Nat.min_eq_left (le_trans hlen hcap)
    constructor
    · show ((h.mem ++ [h.read s ++ xs]).getD h.mem.length []).take
          (s.len + xs.length) = _
      rw [getD_concat]
      have hfull : (h.read s ++ xs).length = s.len + xs.length := by
        rw [List.length_append, hrl]
      rw [← hfull, List.take_length]
    · refine ⟨?_, le_refl _, ?_⟩
      · show h.mem.length < (h.mem ++ [h.read s ++ xs]).length
        rw [List.length_append]
        simp
      · show s.len + xs.length ≤
            ((h.mem ++ [h.read s ++ xs]).getD h.mem.length []).length
        rw [getD_concat, List.length_append, hrl]

theorem copyFilterLoop_read (keep : Field → Bool) :
    ∀ (l : List Field) (h : Heap) (s : Slice), s.Wf h →
      (copyFilterLoop keep h s l).1.read (copyFilterLoop keep h s l).2 =
        h.read s ++ l.filter keep ∧
      (copyFilterLoop keep h s l).2.Wf (copyFilterLoop keep h s l).1
  | [], h, s, hwf => by
    constructor
    · simp [copyFilterLoop]
    · exact hwf
  | f :: rest, h, s, hwf => by
    simp only [copyFilterLoop]
    by_cases hf : keep f
    · rw [if_pos hf, List.filter_cons_of_pos hf]
      obtain ⟨hr1, hw1⟩ := appendMany_read h s [f] hwf
      obtain ⟨hr2, hw2⟩ := copyFilterLoop_read keep rest _ _ hw1
      refine ⟨?_, hw2⟩
      rw [hr2, hr1, List.append_assoc]
      rfl
    · rw [if_neg hf, List.filter_cons_of_neg hf]
      exact copyFilterLoop_read keep rest h s hwf

theorem withValuesH_carrier (h : Heap) (octx : Option HContext)
    (args : List GoVal)
    (hwf : ∀ s, (octx.getD HContext.background).fieldsValue = some s → s.Wf h) :
    hcarrier (WithValuesH h octx args).1 (WithValuesH h octx args).2 =
      hcarrierO h octx ++ parseFields args := by
  have hbase : hcarrier h (octx.getD HContext.background) = hcarrierO h octx := by
    cases octx <;> rfl
  by_cases hn : parseFields args = []
  · simp only [WithValuesH, hn, if_true]
    rw [List.append_nil]
    exact hbase
  · cases hv : (octx.getD HContext.background).fieldsValue with
    | none =>
      have h0 : hcarrierO h octx = [] := by
        rw [← hbase]
        simp [hcarrier, hv]
      simp only [WithValuesH, hn, if_false, hv]
      show (h.allocList (parseFields args)).1.read
          (h.allocList (parseFields args)).2 = _
      rw [allocList_read, h0, List.nil_append]
    | some s =>
      have h0 : hcarrierO h octx = h.read s := by
        rw [← hbase]
        simp [hcarrier, hv]
      by_cases hl : s.len = 0
      · have hread : h.read s = [] := by
          show (h.mem.getD s.arr []).take s.len = []
          rw [hl]
          rfl
        simp only [WithValuesH, hn, if_false, hv, hl, if_true]
        show (h.allocList (parseFields args)).1.read
            (h.allocList (parseFields args)).2 = _
        rw [allocList_read, h0, hread, List.nil_append]
      · simp only [WithValuesH, hn, if_false, hv, hl, if_false]
        show ((h.clone s).1.appendMany (h.clone s).2 (parseFields args)).1.read
            ((h.clone s).1.appendMany (h.clone s).2 (parseFields args)).2 = _
        obtain ⟨hr2, -⟩ := appendMany_read (h.clone s).1 (h.clone s).2
          (parseFields args) (allocList_wf h (h.read s))
        rw [hr2, show (h.clone s).1.read (h.clone s).2 = h.read s from
          allocList_read h (h.read s), h0]

theorem filterAppend_read (h1 : Heap) (cap : Nat) (nf : Slice)
    (e : List Field) (keep : Field → Bool) (hnf : nf.Wf h1) :
    (let pr := h1.allocCap cap
     let pl := copyFilterLoop keep pr.1 pr.2 e
     let pc := pl.1.appendMany pl.2 (pl.1.read nf)
     pc.1.read pc.2) = e.filter keep ++ h1.read nf := by
  obtain ⟨hr1, hw1⟩ := copyFilterLoop_read keep e (h1.allocCap cap).1
    (h1.allocCap cap).2 (allocCap_wf h1 cap)
  have hk1 : h1.Keeps (h1.allocCap cap).1 :=
    (allocCap_keeps h1 h1 cap (keeps_refl h1)).1
  have hk2 : h1.Keeps
      (copyFilterLoop keep (h1.allocCap cap).1 (h1.allocCap cap).2 e).1 :=
    (copyFilterLoop_keeps keep h1 e _ _ hk1 (le_refl h1.mem.length)).1
  have hrnf : (copyFilterLoop keep (h1.allocCap cap).1
      (h1.allocCap cap).2 e).1.read nf = h1.read nf :=
    read_keeps h1 _ nf hk2 hnf.1
  obtain ⟨hr2, -⟩ := appendMany_read
    (copyFilterLoop keep (h1.allocCap cap).1 (h1.allocCap cap).2 e).1
    (copyFilterLoop keep (h1.allocCap cap).1 (h1.allocCap cap).2 e).2
    ((copyFilterLoop keep (h1.allocCap cap).1 (h1.allocCap cap).2 e).1.read nf)
    hw1
  show ((copyFilterLoop keep (h1.allocCap cap).1 (h1.allocCap cap).2 e).1.appendMany
      (copyFilterLoop keep (h1.allocCap cap).1 (h1.allocCap cap).2 e).2
      ((copyFilterLoop keep (h1.allocCap cap).1 (h1.allocCap cap).2 e).1.read nf)).1.read
    ((copyFilterLoop keep (h1.allocCap cap).1 (h1.allocCap cap).2 e).1.appendMany
      (copyFilterLoop keep (h1.allocCap cap).1 (h1.allocCap cap).2 e).2
      ((copyFilterLoop keep (h1.allocCap cap).1 (h1.allocCap cap).2 e).1.read nf)).2 =
    e.filter keep ++ h1.read nf
  rw [hr2, hr1, hrnf, allocCap_read, List.nil_append]

theorem withUniqueValuesH_carrier (h : Heap) (octx : Option HContext)
    (args : List GoVal)
    (hwf : ∀ s, (octx.getD HContext.background).fieldsValue = some s → s.Wf h) :
    hcarrier (WithUniqueValuesH h octx args).1 (WithUniqueValuesH h octx args).2 =
      (hcarrierO h octx).filter
        (fun f => !((parseFields args).map Slogctx.Field.key).contains f.key) ++
      parseFields args := by
  have hbase : hcarrier h (octx.getD HContext.background) = hcarrierO h octx := by
    cases octx <;> rfl
  by_cases hn : parseFields args = []
  · simp only [WithUniqueValuesH, hn, if_true]
    simpa using hbase
  · have hnfwf : (h.allocList (parseFields args)).2.Wf
        (h.allocList (parseFields args)).1 := allocList_wf h (parseFields args)
    have hnfread : (h.allocList (parseFields args)).1.read
        (h.allocList (parseFields args)).2 = parseFields args :=
      allocList_read h (parseFields args)
    cases hv : (octx.getD HContext.background).fieldsValue with
    | none =>
      have h0 : hcarrierO h octx = [] := by
        rw [← hbase]
        simp [hcarrier, hv]
      simp only [WithUniqueValuesH, hn, if_false, hv]
      have := filterAppend_read (h.allocList (parseFields args)).1
        (([] : List Field).length + (parseFields args).length)
        (h.allocList (parseFields args)).2 []
        (fun f => !((parseFields args).map Slogctx.Field.key).contains f.key)
        hnfwf
      rw [hnfread] at this
      rw [h0]
      exact this
    | some s =>
      have hswf : s.Wf h := hwf s hv
      have h0 : hcarrierO h octx = h.read s := by
        rw [← hbase]
        simp [hcarrier, hv]
      have hkeep : h.Keeps (h.allocList (parseFields args)).1 :=
        (allocList_keeps h h (parseFields args) (keeps_refl h)).1
      have hreads : (h.allocList (parseFields args)).1.read s = h.read s :=
        read_keeps h _ s hkeep hswf.1
      by_cases hl : s.len = 0
      · have hread0 : h.read s = [] := by
          show (h.mem.getD s.arr []).take s.len = []
          rw [hl]
          rfl
        simp only [WithUniqueValuesH, hn, if_false, hv]
        rw [if_neg (show ¬ s.len ≠ 0 from fun hcon => hcon hl)]
        have := filterAppend_read (h.allocList (parseFields args)).1
          (([] : List Field).length + (parseFields args).length)
          (h.allocList (parseFields args)).2 []
          (fun f => !((parseFields args).map Slogctx.Field.key).contains f.key)
          hnfwf
        rw [hnfread] at this
        rw [h0, hread0]
        exact this
      · simp only [WithUniqueValuesH, hn, if_false, hv]
        rw [if_pos hl, hreads]
        have := filterAppend_read (h.allocList (parseFields args)).1
          ((h.read s).length + (parseFields args).length)
          (h.allocList (parseFields args)).2 (h.read s)
          (fun f => !((parseFields args).map Slogctx.Field.key).contains f.key)
          hnfwf
        rw [hnfread] at this
        rw [h0]
        exact this

theorem withoutKeysH_carrier (h : Heap) (octx : Option HContext)
    (keys : List String)
    (hwf : ∀ c s, octx = some c → c.fieldsValue = some s → s.Wf h) :
    hcarrierO (WithoutKeysH h octx keys).1 (WithoutKeysH h octx keys).2 =
      (hcarrierO h octx).filter (fun f => !keys.contains f.key) := by
  cases octx with
  | none => rfl
  | some c =>
    by_cases hk : keys = []
    · simp only [WithoutKeysH, hk, if_true]
      simp [hcarrierO]
    · cases hv : c.fieldsValue with
      | none =>
        simp only [WithoutKeysH, hk, if_false, hv]
        simp [hcarrierO, hcarrier, hv]
      | some s =>
        have hswf : s.Wf h := hwf c s rfl hv
        by_cases hl : s.len = 0
        · have hread0 : h.read s = [] := by
            show (h.mem.getD s.arr []).take s.len = []
            rw [hl]
            rfl
          simp only [WithoutKeysH, hk, if_false, hv, hl, if_true]
          simp [hcarrierO, hcarrier, hv, hread0]
        · obtain ⟨hr1, hw1⟩ := copyFilterLoop_read
            (fun f => !keys.contains f.key) (h.read s)
            (h.allocCap s.len).1 (h.allocCap s.len).2 (allocCap_wf h s.len)
          rw [allocCap_read, List.nil_append] at hr1
          simp only [WithoutKeysH, hk, if_false, hv, hl]
          by_cases hz : (copyFilterLoop (fun f => !keys.contains f.key)
              (h.allocCap s.len).1 (h.allocCap s.len).2 (h.read s)).2.len = 0
          · simp only [hz, if_true]
            have hlen0 : ((copyFilterLoop (fun f => !keys.contains f.key)
                (h.allocCap s.len).1 (h.allocCap s.len).2 (h.read s)).1.read
                (copyFilterLoop (fun f => !keys.contains f.key)
                  (h.allocCap s.len).1 (h.allocCap s.len).2 (h.read s)).2).length =
                0 := by
              rw [read_length _ _ hw1, hz]
            rw [hr1] at hlen0
            have hfilter : (h.read s).filter (fun f => !keys.contains f.key) = [] :=
              List.eq_nil_of_length_eq_zero hlen0
            have hco : hcarrierO h (some c) = h.read s := by
              simp [hcarrierO, hcarrier, hv]
            show ([] : List Field) =
              (hcarrierO h (some c)).filter (fun f => !keys.contains f.key)
            rw [hco, hfilter]
          · simp only [hz, if_false]
            show (copyFilterLoop (fun f => !keys.contains f.key)
                (h.allocCap s.len).1 (h.allocCap s.len).2 (h.read s)).1.read
                (copyFilterLoop (fun f => !keys.contains f.key)
                  (h.allocCap s.len).1 (h.allocCap s.len).2 (h.read s)).2 =
              (hcarrierO h (some c)).filter (fun f => !keys.contains f.key)
            rw [hr1]
            simp [hcarrierO, hcarrier, hv]

end SlogctxHeap
